import Mathlib

/-
Verification development for the aioairctrl CoAP client core.

The repository ships the encryption/session/client core only through its
tests and callers; the cryptographic session layer (EncryptionContext,
Client) is therefore modelled from the specification, while the CLI
argument handling and the discovery scanner are translated directly from
the Python sources under src/.

Wire strings (counters, frames, hex) are modelled as lists of characters,
bytes as natural numbers below 256.
-/

set_option maxHeartbeats 1000000
set_option maxRecDepth 100000

namespace Airctrl

/-- Uppercase hexadecimal digit character for a value below 16. -/
def hexDigitChar (n : Nat) : Char :=
  if n < 10 then Char.ofNat (48 + n) else Char.ofNat (55 + n)

/-- Two uppercase hex characters of one byte (most significant nibble first). -/
def byteHexChars (b : Nat) : List Char :=
  [hexDigitChar (b / 16 % 16), hexDigitChar (b % 16)]

/-- Uppercase hex rendering of a byte list, as Python bytes.hex().upper(). -/
def bytesToHex (bs : List Nat) : List Char :=
  (bs.map byteHexChars).flatten

/-- 8-character zero-padded uppercase hex rendering of a 32-bit value,
as the Python format string used for the client counter. -/
def toHex8 (n : Nat) : List Char :=
  [hexDigitChar (n / 16 ^ 7 % 16), hexDigitChar (n / 16 ^ 6 % 16),
   hexDigitChar (n / 16 ^ 5 % 16), hexDigitChar (n / 16 ^ 4 % 16),
   hexDigitChar (n / 16 ^ 3 % 16), hexDigitChar (n / 16 ^ 2 % 16),
   hexDigitChar (n / 16 % 16), hexDigitChar (n % 16)]

/-- Numeric value of a hexadecimal digit character (upper or lower case). -/
def hexVal (c : Char) : Option Nat :=
  if 48 ≤ c.toNat ∧ c.toNat ≤ 57 then some (c.toNat - 48)
  else if 65 ≤ c.toNat ∧ c.toNat ≤ 70 then some (c.toNat - 55)
  else if 97 ≤ c.toNat ∧ c.toNat ≤ 102 then some (c.toNat - 87)
  else none

/-- Accumulating hexadecimal parse of a character list. -/
def parseHexDigits : List Char → Nat → Option Nat
  | [], acc => some acc
  | c :: rest, acc =>
    (hexVal c).bind (fun d => parseHexDigits rest (16 * acc + d))

/-- Parse a nonempty hexadecimal string, as Python int(s, 16). -/
def parseHexNat (cs : List Char) : Option Nat :=
  if cs.isEmpty then none else parseHexDigits cs 0

/-- Recognizer for the characters 0-9 and A-F. -/
def isUpperHexChar (c : Char) : Bool :=
  (48 ≤ c.toNat && c.toNat ≤ 57) || (65 ≤ c.toNat && c.toNat ≤ 70)

/-- Decode a hex string into bytes, two characters per byte,
as Python bytes.fromhex; fails on odd length or a non-hex character. -/
def hexToBytes : List Char → Option (List Nat)
  | [] => some []
  | [_] => none
  | c1 :: c2 :: rest =>
    (hexVal c1).bind fun d1 =>
      (hexVal c2).bind fun d2 =>
        (hexToBytes rest).map fun bs => (16 * d1 + d2) :: bs

theorem hexVal_hexDigitChar : ∀ d, d < 16 → hexVal (hexDigitChar d) = some d := by
  decide

theorem isUpperHexChar_hexDigitChar : ∀ d, d < 16 → isUpperHexChar (hexDigitChar d) = true := by
  decide

theorem toHex8_length (n : Nat) : (toHex8 n).length = 8 := rfl

theorem toHex8_mem_hex (n : Nat) : ∀ c ∈ toHex8 n, isUpperHexChar c = true := by
  intro c hc
  have hlt : ∀ k : Nat, n / 16 ^ k % 16 < 16 := fun k => Nat.mod_lt _ (by decide)
  simp only [toHex8, List.mem_cons, List.not_mem_nil, or_false] at hc
  have h16 : n % 16 < 16 := Nat.mod_lt _ (by decide)
  rcases hc with rfl | rfl | rfl | rfl | rfl | rfl | rfl | rfl
  · exact isUpperHexChar_hexDigitChar _ (hlt 7)
  · exact isUpperHexChar_hexDigitChar _ (hlt 6)
  · exact isUpperHexChar_hexDigitChar _ (hlt 5)
  · exact isUpperHexChar_hexDigitChar _ (hlt 4)
  · exact isUpperHexChar_hexDigitChar _ (hlt 3)
  · exact isUpperHexChar_hexDigitChar _ (hlt 2)
  · exact isUpperHexChar_hexDigitChar _ (hlt 1)
  · exact isUpperHexChar_hexDigitChar _ h16

theorem parseHexNat_toHex8 (n : Nat) (h : n < 2 ^ 32) : parseHexNat (toHex8 n) = some n := by
  have hlt : ∀ k : Nat, n / 16 ^ k % 16 < 16 := fun k => Nat.mod_lt _ (by decide)
  have hlt1 : n / 16 % 16 < 16 := Nat.mod_lt _ (by decide)
  have h16 : n % 16 < 16 := Nat.mod_lt _ (by decide)
  simp only [parseHexNat, toHex8, List.isEmpty_cons, if_false, Bool.false_eq_true]
  simp only [parseHexDigits, hexVal_hexDigitChar _ (hlt 7), hexVal_hexDigitChar _ (hlt 6),
    hexVal_hexDigitChar _ (hlt 5), hexVal_hexDigitChar _ (hlt 4), hexVal_hexDigitChar _ (hlt 3),
    hexVal_hexDigitChar _ (hlt 2), hexVal_hexDigitChar _ hlt1, hexVal_hexDigitChar _ h16,
    Option.bind_some, Option.some_bind, Option.some.injEq]
  have h32 : n < 4294967296 := by omega
  omega

theorem toHex8_injOn {m n : Nat} (hm : m < 2 ^ 32) (hn : n < 2 ^ 32)
    (h : toHex8 m = toHex8 n) : m = n := by
  have := parseHexNat_toHex8 m hm
  rw [h, parseHexNat_toHex8 n hn] at this
  exact (Option.some.injEq _ _ ▸ this).symm

theorem hexToBytes_bytesToHex (bs : List Nat) (hb : ∀ b ∈ bs, b < 256) :
    hexToBytes (bytesToHex bs) = some bs := by
  induction bs with
  | nil => rfl
  | cons b rest ih =>
    have hblt : b < 256 := hb b (List.mem_cons_self _ _)
    have h1 : b / 16 % 16 < 16 := Nat.mod_lt _ (by decide)
    have h2 : b % 16 < 16 := Nat.mod_lt _ (by decide)
    have hrest := ih (fun x hx => hb x (List.mem_cons_of_mem _ hx))
    simp only [bytesToHex, List.map_cons, List.flatten_cons, byteHexChars, List.cons_append,
      List.nil_append] at *
    simp only [hexToBytes, hexVal_hexDigitChar _ h1, hexVal_hexDigitChar _ h2,
      Option.some_bind, hrest, Option.map_some', Option.some.injEq, List.cons.injEq, and_true]
    omega

theorem bytesToHex_length (bs : List Nat) : (bytesToHex bs).length = 2 * bs.length := by
  induction bs with
  | nil => rfl
  | cons b rest ih =>
    simp only [bytesToHex, List.map_cons, List.flatten_cons, byteHexChars] at *
    simp [ih]
    omega

theorem bytesToHex_mem_hex (bs : List Nat) : ∀ c ∈ bytesToHex bs, isUpperHexChar c = true := by
  intro c hc
  simp only [bytesToHex, List.mem_flatten, List.mem_map] at hc
  obtain ⟨l, ⟨b, _, rfl⟩, hcl⟩ := hc
  simp only [byteHexChars, List.mem_cons, List.not_mem_nil, or_false] at hcl
  rcases hcl with rfl | rfl
  · exact isUpperHexChar_hexDigitChar _ (Nat.mod_lt _ (by decide))
  · exact isUpperHexChar_hexDigitChar _ (Nat.mod_lt _ (by decide))

/-! ### SHA-256

Modelled from the spec: the repository obtains SHA-256 from the Python
standard library; the function is reproduced here from the FIPS 180-4
algorithm so that digests are concretely computable. -/

/-- The 32-bit modulus. -/
def M32 : Nat := 4294967296

/-- Right rotation of a 32-bit word. -/
def rotr32 (n x : Nat) : Nat := ((x >>> n) ||| (x <<< (32 - n))) % M32

/-- Working state of the SHA-256 compression function. -/
structure SHAState where
  a : Nat
  b : Nat
  c : Nat
  d : Nat
  e : Nat
  f : Nat
  g : Nat
  h : Nat
  deriving DecidableEq

/-- The 64 SHA-256 round constants (decimal). -/
def shaK : List Nat :=
  [1116352408, 1899447441, 3049323471, 3921009573, 961987163, 1508970993,
   2453635748, 2870763221, 3624381080, 310598401, 607225278, 1426881987,
   1925078388, 2162078206, 2614888103, 3248222580, 3835390401, 4022224774,
   264347078, 604807628, 770255983, 1249150122, 1555081692, 1996064986,
   2554220882, 2821834349, 2952996808, 3210313671, 3336571891, 3584528711,
   113926993, 338241895, 666307205, 773529912, 1294757372, 1396182291,
   1695183700, 1986661051, 2177026350, 2456956037, 2730485921, 2820302411,
   3259730800, 3345764771, 3516065817, 3600352804, 4094571909, 275423344,
   430227734, 506948616, 659060556, 883997877, 958139571, 1322822218,
   1537002063, 1747873779, 1955562222, 2024104815, 2227730452, 2361852424,
   2428436474, 2756734187, 3204031479, 3329325298]

/-- The SHA-256 initial hash value (decimal). -/
def shaInit : SHAState :=
  ⟨1779033703, 3144134277, 1013904242, 2773480762, 1359893119, 2600822924, 528734635, 1541459225⟩

/-- The upper-case big sigma functions of SHA-256. -/
def bigSigma0 (x : Nat) : Nat := rotr32 2 x ^^^ rotr32 13 x ^^^ rotr32 22 x

def bigSigma1 (x : Nat) : Nat := rotr32 6 x ^^^ rotr32 11 x ^^^ rotr32 25 x

/-- The lower-case small sigma functions of SHA-256. -/
def smallSigma0 (x : Nat) : Nat := rotr32 7 x ^^^ rotr32 18 x ^^^ (x >>> 3)

def smallSigma1 (x : Nat) : Nat := rotr32 17 x ^^^ rotr32 19 x ^^^ (x >>> 10)

/-- The choice function; 32-bit complement written as xor with all-ones. -/
def chFn (x y z : Nat) : Nat := (x &&& y) ^^^ ((x ^^^ 4294967295) &&& z)

/-- The majority function. -/
def majFn (x y z : Nat) : Nat := (x &&& y) ^^^ (x &&& z) ^^^ (y &&& z)

/-- One round of the SHA-256 compression function. -/
def shaRound (st : SHAState) (kw : Nat × Nat) : SHAState :=
  let t1 := (st.h + bigSigma1 st.e + chFn st.e st.f st.g + kw.1 + kw.2) % M32
  let t2 := (bigSigma0 st.a + majFn st.a st.b st.c) % M32
  ⟨(t1 + t2) % M32, st.a, st.b, st.c, (st.d + t1) % M32, st.e, st.f, st.g⟩

/-- Extend the 16-word message schedule by a given number of words. -/
def extendW : Nat → List Nat → List Nat
  | 0, ws => ws
  | n + 1, ws =>
    let l := ws.length
    let w := (smallSigma1 (ws.getD (l - 2) 0) + ws.getD (l - 7) 0 +
              smallSigma0 (ws.getD (l - 15) 0) + ws.getD (l - 16) 0) % M32
    extendW n (ws ++ [w])

/-- Compress one 16-word block into the running state. -/
def compressBlock (st : SHAState) (ws : List Nat) : SHAState :=
  let w64 := extendW 48 ws
  let r := (shaK.zip w64).foldl shaRound st
  ⟨(st.a + r.a) % M32, (st.b + r.b) % M32, (st.c + r.c) % M32, (st.d + r.d) % M32,
   (st.e + r.e) % M32, (st.f + r.f) % M32, (st.g + r.g) % M32, (st.h + r.h) % M32⟩

/-- Big-endian 32-bit words of a byte list (groups of four bytes). -/
def bytesToWords : List Nat → List Nat
  | b0 :: b1 :: b2 :: b3 :: rest =>
    ((((b0 % 256) * 256 + b1 % 256) * 256 + b2 % 256) * 256 + b3 % 256) :: bytesToWords rest
  | _ => []

/-- The four big-endian bytes of a 32-bit word. -/
def wordBytesBE (w : Nat) : List Nat :=
  [(w >>> 24) % 256, (w >>> 16) % 256, (w >>> 8) % 256, w % 256]

/-- SHA-256 message padding: a 0x80 byte, zeros, and the 64-bit bit length. -/
def shaPadded (msg : List Nat) : List Nat :=
  let L := msg.length
  let k := (64 + 56 - (L + 1) % 64) % 64
  let bits := 8 * L
  msg.map (· % 256) ++ 128 :: List.replicate k 0 ++
    [(bits >>> 56) % 256, (bits >>> 48) % 256, (bits >>> 40) % 256, (bits >>> 32) % 256,
     (bits >>> 24) % 256, (bits >>> 16) % 256, (bits >>> 8) % 256, bits % 256]

/-- Fuel-driven splitting of a byte list into blocks of the given size;
structurally recursive so that it evaluates by kernel reduction. -/
def chunksGo (size : Nat) : Nat → List Nat → List (List Nat)
  | _, [] => []
  | 0, _ :: _ => []
  | fuel + 1, a :: rest => ((a :: rest).take size) :: chunksGo size fuel ((a :: rest).drop size)

theorem chunksGo_irrel (size : Nat) (hsize : 0 < size) :
    ∀ f1 f2 l, l.length ≤ f1 → l.length ≤ f2 →
      chunksGo size f1 l = chunksGo size f2 l := by
  intro f1
  induction f1 with
  | zero =>
    intro f2 l h1 _
    have : l = [] := List.eq_nil_of_length_eq_zero (by omega)
    subst this
    cases f2 <;> rfl
  | succ n ih =>
    intro f2 l h1 h2
    cases l with
    | nil => cases f2 <;> rfl
    | cons a rest =>
      cases f2 with
      | zero => simp at h2
      | succ m =>
        rw [chunksGo, chunksGo]
        congr 1
        apply ih
        · simp only [List.length_drop, List.length_cons] at *
          omega
        · simp only [List.length_drop, List.length_cons] at *
          omega

/-- Split a byte list into 64-byte blocks. -/
def chunks64 (l : List Nat) : List (List Nat) := chunksGo 64 l.length l

/-- The SHA-256 digest (32 bytes) of a byte message. -/
def sha256 (msg : List Nat) : List Nat :=
  let blocks := chunks64 (shaPadded msg)
  let st := blocks.foldl (fun s b => compressBlock s (bytesToWords b)) shaInit
  ([st.a, st.b, st.c, st.d, st.e, st.f, st.g, st.h].map wordBytesBE).flatten

/-- Byte value of a character of a wire string (wire strings are ASCII). -/
def charByte (c : Char) : Nat := c.toNat % 256

/-- The 64 uppercase hex characters of the SHA-256 digest of a string,
as Python hashlib sha256 hexdigest().upper() over the encoded string. -/
def sha256HexChars (cs : List Char) : List Char :=
  bytesToHex (sha256 (cs.map charByte))

theorem wordBytesBE_lt (w : Nat) : ∀ x ∈ wordBytesBE w, x < 256 := by
  intro x hx
  simp only [wordBytesBE, List.mem_cons, List.not_mem_nil, or_false] at hx
  rcases hx with rfl | rfl | rfl | rfl <;> exact Nat.mod_lt _ (by decide)

theorem sha256_length (msg : List Nat) : (sha256 msg).length = 32 := rfl

theorem sha256_lt (msg : List Nat) : ∀ x ∈ sha256 msg, x < 256 := by
  intro x hx
  simp only [sha256, List.mem_flatten, List.mem_map] at hx
  obtain ⟨l, ⟨w, _, rfl⟩, hxl⟩ := hx
  exact wordBytesBE_lt w x hxl

theorem sha256HexChars_length (cs : List Char) : (sha256HexChars cs).length = 64 := by
  simp [sha256HexChars, bytesToHex_length, sha256_length]

theorem sha256HexChars_mem_hex (cs : List Char) :
    ∀ c ∈ sha256HexChars cs, isUpperHexChar c = true :=
  fun c hc => bytesToHex_mem_hex _ c hc

/-! ### AES-CBC, PKCS#7 and the encryption context -/

/-- Modelled from the spec: the AES-128 block cipher itself is supplied by an
external crypto library; it is modelled as an abstract 16-byte block cipher
together with the standard laws such a cipher guarantees (output length,
output byte range, and decryption inverting encryption). -/
structure AESCipher where
  enc : List Nat → List Nat → List Nat
  dec : List Nat → List Nat → List Nat
  enc_length : ∀ k b, k.length = 16 → b.length = 16 → (enc k b).length = 16
  enc_lt : ∀ k b, (∀ x ∈ k, x < 256) → (∀ x ∈ b, x < 256) → ∀ x ∈ enc k b, x < 256
  dec_enc : ∀ k b, k.length = 16 → b.length = 16 → (∀ x ∈ k, x < 256) →
    (∀ x ∈ b, x < 256) → dec k (enc k b) = b

/-- Byte-wise xor of two equal-length byte blocks. -/
def xorBlock (a b : List Nat) : List Nat :=
  List.zipWith (fun x y => x ^^^ y) a b

/-- Number of PKCS#7 padding bytes for a message of the given length. -/
def padLen (n : Nat) : Nat := 16 - n % 16

/-- PKCS#7 padding to a multiple of 16 bytes. -/
def pkcs7pad (p : List Nat) : List Nat :=
  p ++ List.replicate (padLen p.length) (padLen p.length)

/-- PKCS#7 unpadding; fails when the trailing padding is not well formed. -/
def pkcs7unpad (l : List Nat) : Option (List Nat) :=
  match l.getLast? with
  | none => none
  | some k =>
    if k = 0 ∨ 16 < k ∨ l.length < k then none
    else if (l.drop (l.length - k)).all (fun x => x == k) then some (l.take (l.length - k))
    else none

/-- Split a byte list into 16-byte AES blocks. -/
def chunks16 (l : List Nat) : List (List Nat) := chunksGo 16 l.length l

theorem chunks16_nil : chunks16 [] = [] := rfl

theorem chunks16_cons (a : Nat) (rest : List Nat) :
    chunks16 (a :: rest) =
      ((a :: rest).take 16) :: chunks16 ((a :: rest).drop 16) := by
  show chunksGo 16 (rest.length + 1) (a :: rest) = _
  rw [chunksGo]
  congr 1
  apply chunksGo_irrel 16 (by decide)
  · simp only [List.length_drop, List.length_cons]
    omega
  · exact Nat.le_refl _

/-- Induction along the 16-byte chunking of a list. -/
theorem chunks16_rec (P : List Nat → Prop) (h0 : P [])
    (hstep : ∀ a rest, P ((a :: rest).drop 16) → P (a :: rest)) (l : List Nat) : P l := by
  have key : ∀ n l, l.length ≤ n → P l := by
    intro n
    induction n with
    | zero =>
      intro l hl
      have : l = [] := List.eq_nil_of_length_eq_zero (by omega)
      rw [this]
      exact h0
    | succ n ih =>
      intro l hl
      cases l with
      | nil => exact h0
      | cons a rest =>
        apply hstep
        apply ih
        simp only [List.length_drop, List.length_cons] at *
        omega
  exact key l.length l (Nat.le_refl _)

/-- CBC-mode encryption over a block list, chaining from the IV. -/
def cbcEncryptBlocks (A : AESCipher) (key : List Nat) : List Nat → List (List Nat) → List (List Nat)
  | _, [] => []
  | iv, b :: bs =>
    let c := A.enc key (xorBlock iv b)
    c :: cbcEncryptBlocks A key c bs

/-- CBC-mode decryption over a block list, chaining from the IV. -/
def cbcDecryptBlocks (A : AESCipher) (key : List Nat) : List Nat → List (List Nat) → List (List Nat)
  | _, [] => []
  | iv, c :: cs =>
    xorBlock iv (A.dec key c) :: cbcDecryptBlocks A key c cs

/-- The fixed pre-shared secret of the protocol. -/
def SECRET_KEY : String := "JiangPan"

/-- Modelled from the spec: the state of the encryption session, mirroring
EncryptionContext of the missing coap/encryption module; clientKey models
the stored client key field, None before the sync handshake. -/
structure EncryptionContext where
  clientKey : Option (List Char)
  deriving DecidableEq

/-- Modelled from the spec: a fresh EncryptionContext holds no client key. -/
def EncryptionContext.init : EncryptionContext := ⟨none⟩

/-- Modelled from the spec: set_client_key stores the given counter string. -/
def EncryptionContext.set_client_key (_ctx : EncryptionContext) (key : List Char) :
    EncryptionContext := ⟨some key⟩

/-- Modelled from the spec: advance an 8-hex-char counter by one modulo 2^32,
preserving the zero-padded uppercase rendering; fails on a non-hex counter. -/
def incrementHex (key : List Char) : Option (List Char) :=
  (parseHexNat key).map (fun n => toHex8 ((n + 1) % 2 ^ 32))

/-- The 16 bytes SECRET_KEY followed by the ASCII counter, used as both the
AES-128 key and the IV. -/
def keyMaterial (counter : List Char) : List Nat :=
  (SECRET_KEY.data ++ counter).map charByte

/-- AES-128-CBC encryption of a padded plaintext under the counter material. -/
def aesEncryptBytes (A : AESCipher) (counter : List Char) (p : List Nat) : List Nat :=
  (cbcEncryptBlocks A (keyMaterial counter) (keyMaterial counter) (chunks16 (pkcs7pad p))).flatten

/-- Modelled from the spec: encrypt advances the stored counter once, AES-CBC
encrypts the plaintext bytes under the new counter, and returns the frame
newCounter followed by the ciphertext hex and the SHA-256 digest hex, together
with the updated context; fails when no valid client key is stored. -/
def EncryptionContext.encrypt (A : AESCipher) (ctx : EncryptionContext) (p : List Nat) :
    Option (List Char × EncryptionContext) :=
  ctx.clientKey.bind fun key =>
    (incrementHex key).map fun key' =>
      let cthex := bytesToHex (aesEncryptBytes A key' p)
      let digest := sha256HexChars (key' ++ cthex)
      (key' ++ cthex ++ digest, ⟨some key'⟩)

/-- Error kinds of frame decryption. -/
inductive DecryptError where
  | digestMismatch
  | malformed
  deriving DecidableEq

/-- Modelled from the spec: decrypt splits the frame into the first 8 counter
characters, the trailing 64 digest characters and the ciphertext between them,
verifies the recomputed SHA-256 digest (raising DigestMismatch on difference),
then AES-CBC decrypts under the counter taken from the frame and strips the
PKCS#7 padding; all shape failures are MalformedFrame. -/
def decryptFrame (A : AESCipher) (frame : List Char) : Except DecryptError (List Nat) :=
  if frame.length < 72 then .error .malformed
  else
    let key := frame.take 8
    let cthex := (frame.drop 8).take (frame.length - 72)
    let digest := frame.drop (frame.length - 64)
    if digest = sha256HexChars (key ++ cthex) then
      match hexToBytes cthex with
      | none => .error .malformed
      | some ct =>
        if ct.length % 16 = 0 then
          match pkcs7unpad (cbcDecryptBlocks A (keyMaterial key) (keyMaterial key)
              (chunks16 ct)).flatten with
          | some p => .ok p
          | none => .error .malformed
        else .error .malformed
    else .error .digestMismatch

/-- The frames produced by a sequence of successful encrypt calls threading the
context through; stops if an encrypt call fails. -/
def encryptAll (A : AESCipher) (ctx : EncryptionContext) : List (List Nat) → List (List Char)
  | [] => []
  | p :: ps =>
    match ctx.encrypt A p with
    | some (f, ctx') => f :: encryptAll A ctx' ps
    | none => []

/-! ### Supporting lemmas for the codec -/

theorem charByte_lt (c : Char) : charByte c < 256 := Nat.mod_lt _ (by decide)

theorem keyMaterial_length (counter : List Char) (h : counter.length = 8) :
    (keyMaterial counter).length = 16 := by
  simp [keyMaterial, h, SECRET_KEY]

theorem keyMaterial_lt (counter : List Char) : ∀ x ∈ keyMaterial counter, x < 256 := by
  intro x hx
  simp only [keyMaterial, List.mem_map] at hx
  obtain ⟨c, _, rfl⟩ := hx
  exact charByte_lt c

theorem padLen_pos (n : Nat) : 0 < padLen n := by
  have : n % 16 < 16 := Nat.mod_lt _ (by decide)
  simp only [padLen]; omega

theorem padLen_le (n : Nat) : padLen n ≤ 16 := by
  simp only [padLen]; omega

theorem pkcs7pad_length (p : List Nat) :
    (pkcs7pad p).length = p.length + padLen p.length := by
  simp [pkcs7pad]

theorem pkcs7pad_length_mod (p : List Nat) : (pkcs7pad p).length % 16 = 0 := by
  have : p.length % 16 < 16 := Nat.mod_lt _ (by decide)
  simp only [pkcs7pad_length, padLen]
  omega

theorem pkcs7pad_ne_nil (p : List Nat) : pkcs7pad p ≠ [] := by
  intro h
  have := congrArg List.length h
  simp only [pkcs7pad_length, List.length_nil] at this
  have := padLen_pos p.length
  omega

theorem pkcs7pad_lt (p : List Nat) (hp : ∀ x ∈ p, x < 256) :
    ∀ x ∈ pkcs7pad p, x < 256 := by
  intro x hx
  simp only [pkcs7pad, List.mem_append, List.mem_replicate] at hx
  rcases hx with hx | ⟨_, rfl⟩
  · exact hp x hx
  · have := padLen_le p.length; omega

theorem getLast?_replicate_of_pos {α : Type} (a : α) (n : Nat) (h : 0 < n) :
    (List.replicate n a).getLast? = some a := by
  obtain ⟨m, rfl⟩ : ∃ m, n = m + 1 := ⟨n - 1, by omega⟩
  rw [List.replicate_succ', List.getLast?_concat]

theorem pkcs7unpad_append (p : List Nat) (k : Nat) (h1 : 0 < k) (h2 : k ≤ 16) :
    pkcs7unpad (p ++ List.replicate k k) = some p := by
  have hlast : (p ++ List.replicate k k).getLast? = some k := by
    rw [List.getLast?_append, getLast?_replicate_of_pos _ _ h1]
    rfl
  have hlen : (p ++ List.replicate k k).length = p.length + k := by simp
  simp only [pkcs7unpad, hlast]
  rw [if_neg (by rw [hlen]; omega)]
  have hd : (p ++ List.replicate k k).length - k = p.length := by omega
  rw [hd, List.drop_left, List.take_left]
  rw [if_pos]
  simp [List.all_eq_true, List.mem_replicate]

theorem pkcs7unpad_pkcs7pad (p : List Nat) : pkcs7unpad (pkcs7pad p) = some p :=
  pkcs7unpad_append p (padLen p.length) (padLen_pos _) (padLen_le _)

theorem chunks16_flatten (l : List Nat) : (chunks16 l).flatten = l := by
  induction l using chunks16_rec with
  | h0 => rw [chunks16_nil]; rfl
  | hstep a rest ih =>
    rw [chunks16_cons, List.flatten_cons, ih, List.take_append_drop]

theorem chunks16_ne_nil (l : List Nat) (h : l ≠ []) : chunks16 l ≠ [] := by
  match l with
  | [] => exact absurd rfl h
  | a :: rest => rw [chunks16_cons]; exact List.cons_ne_nil _ _

theorem chunks16_mem_length (l : List Nat) :
    l.length % 16 = 0 → ∀ b ∈ chunks16 l, b.length = 16 := by
  induction l using chunks16_rec with
  | h0 => intro _ b hb; rw [chunks16_nil] at hb; simp at hb
  | hstep a rest ih =>
    intro h b hb
    rw [chunks16_cons] at hb
    have hge : 16 ≤ (a :: rest).length := by
      have : (a :: rest).length ≠ 0 := by simp
      omega
    rcases List.mem_cons.mp hb with rfl | hb
    · simp only [List.length_take]
      omega
    · refine ih ?_ b hb
      simp only [List.length_drop]
      omega

theorem chunks16_mem_mem (l : List Nat) : ∀ b ∈ chunks16 l, ∀ x ∈ b, x ∈ l := by
  induction l using chunks16_rec with
  | h0 => intro b hb; rw [chunks16_nil] at hb; simp at hb
  | hstep a rest ih =>
    intro b hb x hx
    rw [chunks16_cons] at hb
    rcases List.mem_cons.mp hb with rfl | hb
    · exact List.take_subset _ _ hx
    · exact List.drop_subset _ _ (ih b hb x hx)

theorem chunks16_of_blocks (bs : List (List Nat)) (h : ∀ b ∈ bs, b.length = 16) :
    chunks16 bs.flatten = bs := by
  induction bs with
  | nil => exact chunks16_nil
  | cons b rest ih =>
    have hb : b.length = 16 := h b (List.mem_cons_self _ _)
    have hbne : b ≠ [] := by intro hn; rw [hn] at hb; simp at hb
    have hrest := ih (fun x hx => h x (List.mem_cons_of_mem _ hx))
    rw [List.flatten_cons]
    obtain ⟨c, cs, rfl⟩ : ∃ c cs, b = c :: cs := by
      cases b with
      | nil => exact absurd rfl hbne
      | cons c cs => exact ⟨c, cs, rfl⟩
    rw [List.cons_append, chunks16_cons, ← List.cons_append, List.take_left' hb,
      List.drop_left' hb, hrest]

theorem xorBlock_length (a b : List Nat) : (xorBlock a b).length = min a.length b.length := by
  simp [xorBlock]

theorem xorBlock_lt (a : List Nat) :
    ∀ b, (∀ x ∈ a, x < 256) → (∀ x ∈ b, x < 256) → ∀ x ∈ xorBlock a b, x < 256 := by
  induction a with
  | nil => intro b _ _ x hx; simp [xorBlock] at hx
  | cons y ys ih =>
    intro b ha hb x hx
    cases b with
    | nil => simp [xorBlock] at hx
    | cons z zs =>
      simp only [xorBlock, List.zipWith_cons_cons, List.mem_cons] at hx
      rcases hx with rfl | hx
      · have h1 : y < 2 ^ 8 := by have := ha y (List.mem_cons_self _ _); omega
        have h2 : z < 2 ^ 8 := by have := hb z (List.mem_cons_self _ _); omega
        have := Nat.xor_lt_two_pow h1 h2
        omega
      · exact ih zs (fun u hu => ha u (List.mem_cons_of_mem _ hu))
          (fun u hu => hb u (List.mem_cons_of_mem _ hu)) x hx

theorem xorBlock_cancel (a : List Nat) :
    ∀ b, a.length = b.length → xorBlock a (xorBlock a b) = b := by
  induction a with
  | nil =>
    intro b h
    cases b with
    | nil => rfl
    | cons z zs => simp at h
  | cons y ys ih =>
    intro b h
    cases b with
    | nil => simp at h
    | cons z zs =>
      simp only [List.length_cons] at h
      simp only [xorBlock, List.zipWith_cons_cons, List.cons.injEq]
      constructor
      · rw [← Nat.xor_assoc, Nat.xor_self, Nat.zero_xor]
      · exact ih zs (by omega)

theorem flatten_length_16 (bs : List (List Nat)) (h : ∀ b ∈ bs, b.length = 16) :
    bs.flatten.length = 16 * bs.length := by
  induction bs with
  | nil => rfl
  | cons b rest ih =>
    simp only [List.flatten_cons, List.length_append, List.length_cons,
      h b (List.mem_cons_self _ _), ih (fun x hx => h x (List.mem_cons_of_mem _ hx))]
    omega

theorem cbcEncryptBlocks_length (A : AESCipher) (key : List Nat) :
    ∀ bs iv, (cbcEncryptBlocks A key iv bs).length = bs.length := by
  intro bs
  induction bs with
  | nil => intro iv; rfl
  | cons b rest ih => intro iv; simp only [cbcEncryptBlocks, List.length_cons, ih]

theorem cbcEncryptBlocks_mem_length (A : AESCipher) (key : List Nat) (hk : key.length = 16) :
    ∀ bs iv, iv.length = 16 → (∀ b ∈ bs, b.length = 16) →
      ∀ c ∈ cbcEncryptBlocks A key iv bs, c.length = 16 := by
  intro bs
  induction bs with
  | nil => intro iv _ _ c hc; simp [cbcEncryptBlocks] at hc
  | cons b rest ih =>
    intro iv hiv hbs c hc
    have hb : b.length = 16 := hbs b (List.mem_cons_self _ _)
    have hxor : (xorBlock iv b).length = 16 := by rw [xorBlock_length, hiv, hb]; rfl
    have hclen : (A.enc key (xorBlock iv b)).length = 16 := A.enc_length key _ hk hxor
    simp only [cbcEncryptBlocks, List.mem_cons] at hc
    rcases hc with rfl | hc
    · exact hclen
    · exact ih _ hclen (fun x hx => hbs x (List.mem_cons_of_mem _ hx)) c hc

theorem cbcEncryptBlocks_mem_lt (A : AESCipher) (key : List Nat) (hk : key.length = 16)
    (hklt : ∀ x ∈ key, x < 256) :
    ∀ bs iv, iv.length = 16 → (∀ x ∈ iv, x < 256) → (∀ b ∈ bs, b.length = 16) →
      (∀ b ∈ bs, ∀ x ∈ b, x < 256) →
      ∀ c ∈ cbcEncryptBlocks A key iv bs, ∀ x ∈ c, x < 256 := by
  intro bs
  induction bs with
  | nil => intro iv _ _ _ _ c hc; simp [cbcEncryptBlocks] at hc
  | cons b rest ih =>
    intro iv hiv hivlt hbs hbslt c hc
    have hb : b.length = 16 := hbs b (List.mem_cons_self _ _)
    have hblt : ∀ x ∈ b, x < 256 := hbslt b (List.mem_cons_self _ _)
    have hxlen : (xorBlock iv b).length = 16 := by rw [xorBlock_length, hiv, hb]; rfl
    have hxlt : ∀ x ∈ xorBlock iv b, x < 256 := xorBlock_lt iv b hivlt hblt
    have hclen : (A.enc key (xorBlock iv b)).length = 16 := A.enc_length key _ hk hxlen
    have hclt : ∀ x ∈ A.enc key (xorBlock iv b), x < 256 := A.enc_lt key _ hklt hxlt
    simp only [cbcEncryptBlocks, List.mem_cons] at hc
    rcases hc with rfl | hc
    · exact hclt
    · exact ih _ hclen hclt (fun x hx => hbs x (List.mem_cons_of_mem _ hx))
        (fun x hx => hbslt x (List.mem_cons_of_mem _ hx)) c hc

theorem cbcDecrypt_cbcEncrypt (A : AESCipher) (key : List Nat) (hk : key.length = 16)
    (hklt : ∀ x ∈ key, x < 256) :
    ∀ bs iv, iv.length = 16 → (∀ x ∈ iv, x < 256) → (∀ b ∈ bs, b.length = 16) →
      (∀ b ∈ bs, ∀ x ∈ b, x < 256) →
      cbcDecryptBlocks A key iv (cbcEncryptBlocks A key iv bs) = bs := by
  intro bs
  induction bs with
  | nil => intro iv _ _ _ _; rfl
  | cons b rest ih =>
    intro iv hiv hivlt hbs hbslt
    have hb : b.length = 16 := hbs b (List.mem_cons_self _ _)
    have hblt : ∀ x ∈ b, x < 256 := hbslt b (List.mem_cons_self _ _)
    have hxlen : (xorBlock iv b).length = 16 := by rw [xorBlock_length, hiv, hb]; rfl
    have hxlt : ∀ x ∈ xorBlock iv b, x < 256 := xorBlock_lt iv b hivlt hblt
    have hclen : (A.enc key (xorBlock iv b)).length = 16 := A.enc_length key _ hk hxlen
    have hclt : ∀ x ∈ A.enc key (xorBlock iv b), x < 256 := A.enc_lt key _ hklt hxlt
    simp only [cbcEncryptBlocks, cbcDecryptBlocks, List.cons.injEq]
    constructor
    · rw [A.dec_enc key _ hk hxlen hklt hxlt, xorBlock_cancel iv b (by omega)]
    · exact ih _ hclen hclt (fun x hx => hbs x (List.mem_cons_of_mem _ hx))
        (fun x hx => hbslt x (List.mem_cons_of_mem _ hx))

/-! ### Frame-level lemmas -/

theorem encrypt_eq (A : AESCipher) (n : Nat) (hn : n < 2 ^ 32) (p : List Nat) :
    EncryptionContext.encrypt A ⟨some (toHex8 n)⟩ p =
      some (toHex8 ((n + 1) % 2 ^ 32) ++
              bytesToHex (aesEncryptBytes A (toHex8 ((n + 1) % 2 ^ 32)) p) ++
              sha256HexChars (toHex8 ((n + 1) % 2 ^ 32) ++
                bytesToHex (aesEncryptBytes A (toHex8 ((n + 1) % 2 ^ 32)) p)),
            ⟨some (toHex8 ((n + 1) % 2 ^ 32))⟩) := by
  simp [EncryptionContext.encrypt, incrementHex, parseHexNat_toHex8 n hn, List.append_assoc]

theorem chunks16_pkcs7pad_pos (p : List Nat) : 0 < (chunks16 (pkcs7pad p)).length :=
  List.length_pos.mpr (chunks16_ne_nil _ (pkcs7pad_ne_nil p))

theorem aesEncryptBytes_length (A : AESCipher) (key' : List Char) (p : List Nat)
    (hk : key'.length = 8) :
    (aesEncryptBytes A key' p).length = 16 * (chunks16 (pkcs7pad p)).length := by
  have hmat : (keyMaterial key').length = 16 := keyMaterial_length key' hk
  have hblocks := chunks16_mem_length (pkcs7pad p) (pkcs7pad_length_mod p)
  have hmem := cbcEncryptBlocks_mem_length A _ hmat (chunks16 (pkcs7pad p))
    (keyMaterial key') hmat hblocks
  rw [aesEncryptBytes, flatten_length_16 _ hmem, cbcEncryptBlocks_length]

theorem aesEncryptBytes_lt (A : AESCipher) (key' : List Char) (p : List Nat)
    (hk : key'.length = 8) (hp : ∀ x ∈ p, x < 256) :
    ∀ x ∈ aesEncryptBytes A key' p, x < 256 := by
  intro x hx
  simp only [aesEncryptBytes, List.mem_flatten] at hx
  obtain ⟨c, hc, hxc⟩ := hx
  exact cbcEncryptBlocks_mem_lt A _ (keyMaterial_length key' hk) (keyMaterial_lt key') _ _
    (keyMaterial_length key' hk) (keyMaterial_lt key')
    (chunks16_mem_length _ (pkcs7pad_length_mod p))
    (fun b hb y hy => pkcs7pad_lt p hp y (chunks16_mem_mem _ b hb y hy))
    c hc x hxc

theorem decryptFrame_append (A : AESCipher) (key' cthex : List Char) (ct : List Nat)
    (hk : key'.length = 8) (hct : hexToBytes cthex = some ct)
    (hctlen : cthex.length = 2 * ct.length) (hmod : ct.length % 16 = 0) :
    decryptFrame A (key' ++ cthex ++ sha256HexChars (key' ++ cthex)) =
      (match pkcs7unpad (cbcDecryptBlocks A (keyMaterial key') (keyMaterial key')
          (chunks16 ct)).flatten with
       | some p => .ok p
       | none => .error .malformed) := by
  have hdiglen : (sha256HexChars (key' ++ cthex)).length = 64 := sha256HexChars_length _
  have hflen : ((key' ++ cthex) ++ sha256HexChars (key' ++ cthex)).length =
      8 + cthex.length + 64 := by
    simp [hk, hdiglen]
    omega
  have htake8 : ((key' ++ cthex) ++ sha256HexChars (key' ++ cthex)).take 8 = key' := by
    rw [List.append_assoc]
    exact List.take_left' hk
  have hdrop8 : ((key' ++ cthex) ++ sha256HexChars (key' ++ cthex)).drop 8 =
      cthex ++ sha256HexChars (key' ++ cthex) := by
    rw [List.append_assoc]
    exact List.drop_left' hk
  have hmid : (cthex ++ sha256HexChars (key' ++ cthex)).take
      (((key' ++ cthex) ++ sha256HexChars (key' ++ cthex)).length - 72) = cthex := by
    rw [hflen]
    exact List.take_left' (by omega)
  have hdig : ((key' ++ cthex) ++ sha256HexChars (key' ++ cthex)).drop
      (((key' ++ cthex) ++ sha256HexChars (key' ++ cthex)).length - 64) =
      sha256HexChars (key' ++ cthex) := by
    rw [hflen]
    exact List.drop_left' (by simp [hk])
  rw [decryptFrame]
  rw [if_neg (by rw [hflen]; omega)]
  simp only [htake8, hdrop8, hmid, hdig, hct, hmod, if_true]

theorem decryptFrame_encrypt (A : AESCipher) (n : Nat) (hn : n < 2 ^ 32) (p : List Nat)
    (hp : ∀ x ∈ p, x < 256) (f : List Char) (ctx' : EncryptionContext)
    (henc : EncryptionContext.encrypt A ⟨some (toHex8 n)⟩ p = some (f, ctx')) :
    decryptFrame A f = .ok p := by
  rw [encrypt_eq A n hn p] at henc
  simp only [Option.some.injEq, Prod.mk.injEq] at henc
  obtain ⟨rfl, rfl⟩ := henc
  have hk : (toHex8 ((n + 1) % 2 ^ 32)).length = 8 := toHex8_length _
  have hctlt := aesEncryptBytes_lt A (toHex8 ((n + 1) % 2 ^ 32)) p hk hp
  have hctlen := aesEncryptBytes_length A (toHex8 ((n + 1) % 2 ^ 32)) p hk
  have hmat : (keyMaterial (toHex8 ((n + 1) % 2 ^ 32))).length = 16 :=
    keyMaterial_length _ hk
  have hblocks := chunks16_mem_length (pkcs7pad p) (pkcs7pad_length_mod p)
  have hblockslt : ∀ b ∈ chunks16 (pkcs7pad p), ∀ x ∈ b, x < 256 :=
    fun b hb y hy => pkcs7pad_lt p hp y (chunks16_mem_mem _ b hb y hy)
  rw [decryptFrame_append A _ _ (aesEncryptBytes A (toHex8 ((n + 1) % 2 ^ 32)) p) hk
    (hexToBytes_bytesToHex _ hctlt) (bytesToHex_length _) (by omega)]
  have hcbcmem := cbcEncryptBlocks_mem_length A _ hmat (chunks16 (pkcs7pad p))
    (keyMaterial (toHex8 ((n + 1) % 2 ^ 32))) hmat hblocks
  rw [aesEncryptBytes, chunks16_of_blocks _ hcbcmem,
    cbcDecrypt_cbcEncrypt A _ hmat (keyMaterial_lt _) _ _ hmat (keyMaterial_lt _)
      hblocks hblockslt,
    chunks16_flatten, pkcs7unpad_pkcs7pad]

/-- A concrete block cipher satisfying the AESCipher laws (xor with the key),
used to instantiate theorems on concrete data. -/
def xorCipher : AESCipher where
  enc := fun k b => xorBlock k b
  dec := fun k b => xorBlock k b
  enc_length := fun k b hk hb => by rw [xorBlock_length, hk, hb]; rfl
  enc_lt := fun k b hk hb => xorBlock_lt k b hk hb
  dec_enc := fun k b hk hb _ _ => xorBlock_cancel k b (by rw [hk, hb])

theorem encryptAll_getD (A : AESCipher) :
    ∀ (ps : List (List Nat)) (n : Nat), n < 2 ^ 32 → ∀ i, i < ps.length →
      ((encryptAll A ⟨some (toHex8 n)⟩ ps).getD i []).take 8 =
        toHex8 ((n + i + 1) % 2 ^ 32) := by
  intro ps
  induction ps with
  | nil => intro n hn i hi; simp at hi
  | cons p rest ih =>
    intro n hn i hi
    simp only [encryptAll, encrypt_eq A n hn p]
    cases i with
    | zero =>
      simp only [List.getD_cons_zero]
      rw [List.append_assoc, List.take_left' (toHex8_length _)]
    | succ j =>
      simp only [List.getD_cons_succ]
      have hmod : (n + 1) % 2 ^ 32 < 2 ^ 32 := Nat.mod_lt _ (by omega)
      have hj : j < rest.length := by
        simp only [List.length_cons] at hi
        omega
      rw [ih ((n + 1) % 2 ^ 32) hmod j hj]
      congr 1
      omega

theorem decryptFrame_digestMismatch (A : AESCipher) (g : List Char) (h72 : ¬ g.length < 72)
    (hne : g.drop (g.length - 64) ≠ sha256HexChars (g.take (g.length - 64))) :
    decryptFrame A g = .error .digestMismatch := by
  have hsplit : g.take 8 ++ (g.drop 8).take (g.length - 72) = g.take (g.length - 64) := by
    rw [← List.take_add]
    congr 1
    omega
  rw [decryptFrame, if_neg h72, if_neg]
  rw [hsplit]
  exact hne

theorem encrypt_frame_split (A : AESCipher) (c0 : Nat) (hc0 : c0 < 2 ^ 32) (p : List Nat)
    (f : List Char) (ctx' : EncryptionContext)
    (henc : EncryptionContext.encrypt A ⟨some (toHex8 c0)⟩ p = some (f, ctx')) :
    72 ≤ f.length ∧
    f.drop (f.length - 64) = sha256HexChars (f.take (f.length - 64)) := by
  rw [encrypt_eq A c0 hc0 p] at henc
  simp only [Option.some.injEq, Prod.mk.injEq] at henc
  obtain ⟨rfl, rfl⟩ := henc
  have hk8 : (toHex8 ((c0 + 1) % 2 ^ 32)).length = 8 := toHex8_length _
  have hdig : (sha256HexChars (toHex8 ((c0 + 1) % 2 ^ 32) ++
      bytesToHex (aesEncryptBytes A (toHex8 ((c0 + 1) % 2 ^ 32)) p))).length = 64 :=
    sha256HexChars_length _
  have hflen : (toHex8 ((c0 + 1) % 2 ^ 32) ++
      bytesToHex (aesEncryptBytes A (toHex8 ((c0 + 1) % 2 ^ 32)) p) ++
      sha256HexChars (toHex8 ((c0 + 1) % 2 ^ 32) ++
        bytesToHex (aesEncryptBytes A (toHex8 ((c0 + 1) % 2 ^ 32)) p))).length =
      8 + (bytesToHex (aesEncryptBytes A (toHex8 ((c0 + 1) % 2 ^ 32)) p)).length + 64 := by
    simp only [List.length_append, hk8, hdig]
  constructor
  · rw [hflen]; omega
  · have hlen64 : (toHex8 ((c0 + 1) % 2 ^ 32) ++
        bytesToHex (aesEncryptBytes A (toHex8 ((c0 + 1) % 2 ^ 32)) p) ++
        sha256HexChars (toHex8 ((c0 + 1) % 2 ^ 32) ++
          bytesToHex (aesEncryptBytes A (toHex8 ((c0 + 1) % 2 ^ 32)) p))).length - 64 =
        (toHex8 ((c0 + 1) % 2 ^ 32) ++
          bytesToHex (aesEncryptBytes A (toHex8 ((c0 + 1) % 2 ^ 32)) p)).length := by
      rw [hflen]
      simp only [List.length_append, hk8]
      omega
    rw [hlen64, List.drop_left, List.take_left]

/-- C1: Counter monotonicity with wraparound: starting from a stored counter
value c0 held in the encryption context in its canonical 8-uppercase-hex
rendering, every sequence of successful encrypt calls produces frames whose
counter portion (the first 8 characters, counting frames from zero) is the
8-hex-char rendering of (c0 + i + 1) mod 2^32; in particular an encrypt call
with stored counter FFFFFFFF yields a frame carrying counter 00000000 and
stores 00000000 as the new client key. -/
theorem claim1_counter_monotonicity (A : AESCipher) (c0 : Nat) (hc0 : c0 < 2 ^ 32)
    (ps : List (List Nat)) :
    (∀ i, i < ps.length →
      ((encryptAll A ⟨some (toHex8 c0)⟩ ps).getD i []).take 8 =
        toHex8 ((c0 + i + 1) % 2 ^ 32)) ∧
    (∀ n : Nat, (toHex8 n).length = 8 ∧ ∀ c ∈ toHex8 n, isUpperHexChar c = true) ∧
    (∀ p : List Nat, ∃ f ctx',
      EncryptionContext.encrypt A ⟨some ("FFFFFFFF".data)⟩ p = some (f, ctx') ∧
      f.take 8 = "00000000".data ∧ ctx'.clientKey = some ("00000000".data)) := by
  refine ⟨fun i hi => encryptAll_getD A ps c0 hc0 i hi,
    fun n => ⟨toHex8_length n, toHex8_mem_hex n⟩, ?_⟩
  · intro p
    have hkey : ("FFFFFFFF".data : List Char) = toHex8 4294967295 := by decide
    rw [hkey, encrypt_eq A 4294967295 (by omega) p]
    refine ⟨_, _, rfl, ?_, ?_⟩
    · rw [List.append_assoc, List.take_left' (toHex8_length _)]
      decide
    · show some (toHex8 ((4294967295 + 1) % 2 ^ 32)) = some ("00000000".data)
      decide

/-- C1 witness: applying the counter monotonicity theorem at the concrete
cipher, counter 1 and a two-message run. -/
theorem claim1_counter_monotonicity_witness :
    ((encryptAll xorCipher ⟨some (toHex8 1)⟩ [[1], []]).getD 0 []).take 8 =
      toHex8 ((1 + 0 + 1) % 2 ^ 32) :=
  (claim1_counter_monotonicity xorCipher 1 (by decide) [[1], []]).1 0 (by decide)

/-- C2: Encrypt/decrypt roundtrip: from any stored counter c0, encrypting a
plaintext gives a frame that decrypts back to it; encrypting the same
plaintext again from the updated context yields a different frame (the
counter having advanced) that still decrypts to the same plaintext. -/
theorem claim2_roundtrip (A : AESCipher) (c0 : Nat) (hc0 : c0 < 2 ^ 32)
    (p : List Nat) (hp : ∀ x ∈ p, x < 256) :
    ∃ f1 ctx1 f2 ctx2,
      EncryptionContext.encrypt A ⟨some (toHex8 c0)⟩ p = some (f1, ctx1) ∧
      EncryptionContext.encrypt A ctx1 p = some (f2, ctx2) ∧
      f1 ≠ f2 ∧
      decryptFrame A f1 = .ok p ∧
      decryptFrame A f2 = .ok p := by
  have h1 : (c0 + 1) % 2 ^ 32 < 2 ^ 32 := Nat.mod_lt _ (by omega)
  have h2 : ((c0 + 1) % 2 ^ 32 + 1) % 2 ^ 32 < 2 ^ 32 := Nat.mod_lt _ (by omega)
  refine ⟨_, _, _, _, encrypt_eq A c0 hc0 p, encrypt_eq A ((c0 + 1) % 2 ^ 32) h1 p,
    ?_, ?_, ?_⟩
  · intro heq
    have htake := congrArg (List.take 8) heq
    rw [List.append_assoc, List.take_left' (toHex8_length _), List.append_assoc,
      List.take_left' (toHex8_length _)] at htake
    have := toHex8_injOn h1 h2 htake
    omega
  · exact decryptFrame_encrypt A c0 hc0 p hp _ _ (encrypt_eq A c0 hc0 p)
  · exact decryptFrame_encrypt A ((c0 + 1) % 2 ^ 32) h1 p hp _ _
      (encrypt_eq A ((c0 + 1) % 2 ^ 32) h1 p)

/-- C2 witness: the roundtrip at the concrete cipher, counter 305419896
(hex 12345678) and the bytes of "test". -/
theorem claim2_roundtrip_witness :
    ∃ f1 ctx1 f2 ctx2,
      EncryptionContext.encrypt xorCipher ⟨some (toHex8 305419896)⟩ [116, 101, 115, 116] =
        some (f1, ctx1) ∧
      EncryptionContext.encrypt xorCipher ctx1 [116, 101, 115, 116] = some (f2, ctx2) ∧
      f1 ≠ f2 ∧
      decryptFrame xorCipher f1 = .ok [116, 101, 115, 116] ∧
      decryptFrame xorCipher f2 = .ok [116, 101, 115, 116] :=
  claim2_roundtrip xorCipher 305419896 (by decide) [116, 101, 115, 116] (by decide)

/-- C3: Frame well-formedness: every frame returned by a successful encrypt
call is the concatenation of the post-increment counter, the ciphertext hex
and the digest hex; the stored counter is advanced exactly once; every
character is uppercase hex; the ciphertext portion is a positive multiple of
32 hex characters and the total length is 8 + 64 plus that portion. -/
theorem claim3_frame_wellformedness (A : AESCipher) (c0 : Nat) (hc0 : c0 < 2 ^ 32)
    (p : List Nat) :
    ∃ cthexpart ctx' m,
      EncryptionContext.encrypt A ⟨some (toHex8 c0)⟩ p =
        some (toHex8 ((c0 + 1) % 2 ^ 32) ++ cthexpart ++
              sha256HexChars (toHex8 ((c0 + 1) % 2 ^ 32) ++ cthexpart), ctx') ∧
      ctx'.clientKey = some (toHex8 ((c0 + 1) % 2 ^ 32)) ∧
      (toHex8 ((c0 + 1) % 2 ^ 32) ++ cthexpart ++
        sha256HexChars (toHex8 ((c0 + 1) % 2 ^ 32) ++ cthexpart)).take 8 =
        toHex8 ((c0 + 1) % 2 ^ 32) ∧
      (∀ c ∈ toHex8 ((c0 + 1) % 2 ^ 32) ++ cthexpart ++
          sha256HexChars (toHex8 ((c0 + 1) % 2 ^ 32) ++ cthexpart),
        isUpperHexChar c = true) ∧
      0 < m ∧ cthexpart.length = 32 * m ∧
      (toHex8 ((c0 + 1) % 2 ^ 32) ++ cthexpart ++
        sha256HexChars (toHex8 ((c0 + 1) % 2 ^ 32) ++ cthexpart)).length =
        8 + 64 + 32 * m := by
  refine ⟨bytesToHex (aesEncryptBytes A (toHex8 ((c0 + 1) % 2 ^ 32)) p), _,
    (chunks16 (pkcs7pad p)).length, encrypt_eq A c0 hc0 p, rfl, ?_, ?_,
    chunks16_pkcs7pad_pos p, ?_, ?_⟩
  · rw [List.append_assoc, List.take_left' (toHex8_length _)]
  · intro c hc
    rcases List.mem_append.mp hc with hc | hc
    · rcases List.mem_append.mp hc with hc | hc
      · exact toHex8_mem_hex _ c hc
      · exact bytesToHex_mem_hex _ c hc
    · exact sha256HexChars_mem_hex _ c hc
  · rw [bytesToHex_length, aesEncryptBytes_length A _ p (toHex8_length _)]
    omega
  · simp only [List.length_append, toHex8_length, sha256HexChars_length,
      bytesToHex_length, aesEncryptBytes_length A _ p (toHex8_length _)]
    omega

/-- C3 witness: frame well-formedness at the concrete cipher, the counter of
the repository format test (hex ABCDEF12) and the bytes of "test". -/
theorem claim3_frame_wellformedness_witness :
    ∃ cthexpart ctx' m,
      EncryptionContext.encrypt xorCipher ⟨some (toHex8 2882400018)⟩ [116, 101, 115, 116] =
        some (toHex8 ((2882400018 + 1) % 2 ^ 32) ++ cthexpart ++
              sha256HexChars (toHex8 ((2882400018 + 1) % 2 ^ 32) ++ cthexpart), ctx') ∧
      ctx'.clientKey = some (toHex8 ((2882400018 + 1) % 2 ^ 32)) ∧
      (toHex8 ((2882400018 + 1) % 2 ^ 32) ++ cthexpart ++
        sha256HexChars (toHex8 ((2882400018 + 1) % 2 ^ 32) ++ cthexpart)).take 8 =
        toHex8 ((2882400018 + 1) % 2 ^ 32) ∧
      (∀ c ∈ toHex8 ((2882400018 + 1) % 2 ^ 32) ++ cthexpart ++
          sha256HexChars (toHex8 ((2882400018 + 1) % 2 ^ 32) ++ cthexpart),
        isUpperHexChar c = true) ∧
      0 < m ∧ cthexpart.length = 32 * m ∧
      (toHex8 ((2882400018 + 1) % 2 ^ 32) ++ cthexpart ++
        sha256HexChars (toHex8 ((2882400018 + 1) % 2 ^ 32) ++ cthexpart)).length =
        8 + 64 + 32 * m :=
  claim3_frame_wellformedness xorCipher 2882400018 (by decide) [116, 101, 115, 116]

/-- C4: Digest authenticity: for a frame produced by encrypt, replacing any
single character in the counter or ciphertext portion (positions before the
final 64 digest characters) makes verification fail with DigestMismatch
whenever the recomputed SHA-256 digest of the modified content differs from
that of the original content (no hash collision at the flip); and replacing
the 64-character digest portion by anything other than the correct digest
also fails with DigestMismatch, so a corrupted frame is never decrypted. -/
theorem claim4_digest_authenticity (A : AESCipher) (c0 : Nat) (hc0 : c0 < 2 ^ 32)
    (p : List Nat) (f : List Char) (ctx' : EncryptionContext)
    (henc : EncryptionContext.encrypt A ⟨some (toHex8 c0)⟩ p = some (f, ctx')) :
    (∀ j, j < f.length - 64 → ∀ c' : Char,
      sha256HexChars ((f.set j c').take (f.length - 64)) ≠
        sha256HexChars (f.take (f.length - 64)) →
      decryptFrame A (f.set j c') = .error .digestMismatch) ∧
    (∀ d' : List Char, d'.length = 64 → d' ≠ f.drop (f.length - 64) →
      decryptFrame A (f.take (f.length - 64) ++ d') = .error .digestMismatch) := by
  obtain ⟨h72, hdigeq⟩ := encrypt_frame_split A c0 hc0 p f ctx' henc
  constructor
  · intro j hj c' hne
    have hlen : (f.set j c').length = f.length := List.length_set f j c'
    apply decryptFrame_digestMismatch
    · rw [hlen]; omega
    · rw [hlen]
      have hdropset : (f.set j c').drop (f.length - 64) = f.drop (f.length - 64) := by
        rw [List.drop_set, if_pos hj]
      rw [hdropset, hdigeq]
      exact fun h => hne h.symm
  · intro d' hd64 hdne
    have htl : (f.take (f.length - 64)).length = f.length - 64 := by
      rw [List.length_take]
      omega
    apply decryptFrame_digestMismatch
    · rw [List.length_append, htl, hd64]; omega
    · have hglen : (f.take (f.length - 64) ++ d').length = f.length := by
        rw [List.length_append, htl, hd64]; omega
      rw [hglen, List.drop_left' htl, List.take_left' htl, ← hdigeq]
      exact hdne

/-- The concrete frame obtained by encrypting the empty plaintext with the
concrete cipher from counter 0, used to instantiate the digest theorem. -/
def sampleFrame : List Char :=
  toHex8 ((0 + 1) % 2 ^ 32) ++
    bytesToHex (aesEncryptBytes xorCipher (toHex8 ((0 + 1) % 2 ^ 32)) []) ++
    sha256HexChars (toHex8 ((0 + 1) % 2 ^ 32) ++
      bytesToHex (aesEncryptBytes xorCipher (toHex8 ((0 + 1) % 2 ^ 32)) []))

/-- C4 witness: flipping the first counter character of a concrete frame is
rejected with DigestMismatch; the digest difference is discharged by
computing both SHA-256 digests. -/
theorem claim4_digest_authenticity_witness :
    decryptFrame xorCipher (sampleFrame.set 0 'F') = .error .digestMismatch :=
  (claim4_digest_authenticity xorCipher 0 (by decide) [] sampleFrame _
      (encrypt_eq xorCipher 0 (by decide) [])).1 0 (by decide) 'F' (by decide)

/-! ### JSON values and the client operations -/

/-- JSON values as used in the protocol envelopes. -/
inductive JVal where
  | null
  | bool (b : Bool)
  | num (n : Int)
  | str (s : List Char)
  | obj (fields : List (List Char × JVal))

/-- Association lookup over JSON object fields (Python subscript or get). -/
def jlookup : List (List Char × JVal) → List Char → Option JVal
  | [], _ => none
  | (k', v) :: rest, k => if k' = k then some v else jlookup rest k

/-- Test for ASCII whitespace, as Python str.strip removes. -/
def isSpaceChar (c : Char) : Bool := c = ' ' || c = '\t' || c = '\n' || c = '\r'

/-- Trim ASCII whitespace from both ends of a wire string. -/
def trimChars (l : List Char) : List Char :=
  ((l.dropWhile isSpaceChar).reverse.dropWhile isSpaceChar).reverse

/-- Result of the sync handshake model: the CoAP request issued and the new
encryption context. -/
structure SyncResult where
  postPath : List Char
  postPayload : List Char
  newCtx : EncryptionContext

/-- Modelled from the spec: sync renders the freshly generated random bytes
as an uppercase hex seed, POSTs the seed to /sys/dev/sync and stores the
trimmed response payload as the client key; the coap/client module holding
this code is present only through its tests. -/
def syncModel (rnd : List Nat) (responsePayload : List Char) : SyncResult :=
  ⟨"/sys/dev/sync".data, bytesToHex rnd,
    EncryptionContext.init.set_client_key (trimChars responsePayload)⟩

/-- C5 counterexample: rendering 8 random bytes as hex yields a 16-character
payload, so a sync that generates 8 random bytes cannot POST the 8-character
seed the protocol requires. -/
theorem claim5_sync_counterexample :
    (syncModel [18, 52, 86, 120, 154, 188, 222, 240] []).postPayload.length = 16 ∧
    (syncModel [18, 52, 86, 120, 154, 188, 222, 240] []).postPayload.length ≠ 8 := by
  constructor
  · rfl
  · decide

/-- C5 (amended): sync generates 4 random bytes, renders them as the
8-character uppercase hex seed, POSTs that seed to /sys/dev/sync, and adopts
the trimmed device answer - not the seed that was sent - as the stored
client key. -/
theorem claim5_sync (rnd : List Nat) (hr : rnd.length = 4) (resp : List Char) :
    (syncModel rnd resp).postPath = "/sys/dev/sync".data ∧
    (syncModel rnd resp).postPayload = bytesToHex rnd ∧
    (syncModel rnd resp).postPayload.length = 8 ∧
    (∀ c ∈ (syncModel rnd resp).postPayload, isUpperHexChar c = true) ∧
    (syncModel rnd resp).newCtx.clientKey = some (trimChars resp) := by
  refine ⟨rfl, rfl, ?_, ?_, rfl⟩
  · show (bytesToHex rnd).length = 8
    rw [bytesToHex_length, hr]
  · exact fun c hc => bytesToHex_mem_hex rnd c hc

/-- C5 witness: the handshake of the repository sync test, with random bytes
12 34 56 78 and device answer ABCD1234. -/
theorem claim5_sync_witness :
    (syncModel [18, 52, 86, 120] ("ABCD1234".data)).postPath = "/sys/dev/sync".data ∧
    (syncModel [18, 52, 86, 120] ("ABCD1234".data)).postPayload =
      bytesToHex [18, 52, 86, 120] ∧
    (syncModel [18, 52, 86, 120] ("ABCD1234".data)).postPayload.length = 8 ∧
    (∀ c ∈ (syncModel [18, 52, 86, 120] ("ABCD1234".data)).postPayload,
      isUpperHexChar c = true) ∧
    (syncModel [18, 52, 86, 120] ("ABCD1234".data)).newCtx.clientKey =
      some (trimChars ("ABCD1234".data)) :=
  claim5_sync [18, 52, 86, 120] (by decide) ("ABCD1234".data)

/-- The JSON envelope keys. -/
def stateKey : List Char := "state".data

def reportedKey : List Char := "reported".data

def desiredKey : List Char := "desired".data

/-- Modelled from the spec: after decoding, verifying and decrypting the
observed status response (the codec layer above), get_status parses the JSON
payload and returns the inner object at state.reported together with the
response max-age, defaulting to 60 when the response carries none; a missing
envelope level is a protocol error (None here). -/
def getStatusModel (decrypted : JVal) (maxAge : Option Nat) : Option (JVal × Nat) :=
  match decrypted with
  | .obj fields =>
    match jlookup fields stateKey with
    | some (.obj inner) =>
      match jlookup inner reportedKey with
      | some rep => some (rep, maxAge.getD 60)
      | none => none
    | _ => none
  | _ => none

/-- C6: get_status returns exactly the pair of the inner reported object of
the decrypted JSON envelope (the very subterm, so scalar types are
preserved) and the max-age, which defaults to 60 when the CoAP response
carries no max-age option. -/
theorem claim6_get_status (env inner : List (List Char × JVal)) (rep : JVal)
    (ma : Option Nat)
    (h1 : jlookup env stateKey = some (.obj inner))
    (h2 : jlookup inner reportedKey = some rep) :
    getStatusModel (.obj env) ma = some (rep, ma.getD 60) ∧
    getStatusModel (.obj env) none = some (rep, 60) := by
  constructor
  · simp only [getStatusModel, h1, h2]
  · simp only [getStatusModel, h1, h2]
    rfl

/-- C6 witness: the status read of the repository client test, the envelope
holding power true and mode auto with max-age 120, and the same envelope
without a max-age. -/
theorem claim6_get_status_witness :
    getStatusModel (.obj [(stateKey, .obj [(reportedKey,
        .obj [("power".data, .bool true), ("mode".data, .str ("auto".data))])])])
      (some 120) =
      some (.obj [("power".data, .bool true), ("mode".data, .str ("auto".data))], 120) ∧
    getStatusModel (.obj [(stateKey, .obj [(reportedKey,
        .obj [("power".data, .bool true), ("mode".data, .str ("auto".data))])])])
      none =
      some (.obj [("power".data, .bool true), ("mode".data, .str ("auto".data))], 60) :=
  claim6_get_status _ _ _ (some 120) rfl rfl

/-- Python dict item assignment: replace the value of an existing key in
place, or append a new binding at the end. -/
def dictSet (m : List (List Char × JVal)) (k : List Char) (v : JVal) :
    List (List Char × JVal) :=
  match m with
  | [] => [(k, v)]
  | (k', v') :: rest => if k' = k then (k', v) :: rest else (k', v') :: dictSet rest k v

/-- Python dict construction by successive assignment (later pairs win). -/
def dictMerge (m : List (List Char × JVal)) (kvs : List (List Char × JVal)) :
    List (List Char × JVal) :=
  kvs.foldl (fun acc kv => dictSet acc kv.1 kv.2) m

/-- The value of the last binding of a key in a pair list, which is the
binding a Python dict literal keeps on duplicate keys. -/
def lookupLast : List (List Char × JVal) → List Char → Option JVal
  | [], _ => none
  | (k', v) :: rest, k =>
    match lookupLast rest k with
    | some v' => some v'
    | none => if k' = k then some v else none

def commandTypeKey : List Char := "CommandType".data

def deviceIdKey : List Char := "DeviceId".data

def enduserIdKey : List Char := "EnduserId".data

/-- The three metadata bindings of the control envelope. -/
def controlMeta : List (List Char × JVal) :=
  [(commandTypeKey, .str ("app".data)), (deviceIdKey, .str []), (enduserIdKey, .str [])]

/-- Modelled from the spec: the desired object serialized by
set_control_values is the dict literal of CommandType app, DeviceId and
EnduserId empty, extended by the user data, user keys overriding on
conflict. -/
def desiredObj (data : List (List Char × JVal)) : List (List Char × JVal) :=
  dictMerge controlMeta data

/-- Modelled from the spec: the full control envelope handed to encryption,
state wrapping desired wrapping the merged object. -/
def controlEnvelope (data : List (List Char × JVal)) : JVal :=
  .obj [(stateKey, .obj [(desiredKey, .obj (desiredObj data))])]

theorem jlookup_dictSet (m : List (List Char × JVal)) (k : List Char) (v : JVal)
    (k2 : List Char) :
    jlookup (dictSet m k v) k2 = if k = k2 then some v else jlookup m k2 := by
  induction m with
  | nil => simp [dictSet, jlookup]
  | cons kv rest ih =>
    obtain ⟨k', v'⟩ := kv
    rw [dictSet]
    by_cases h1 : k' = k
    · subst h1
      rw [if_pos rfl, jlookup, jlookup]
      by_cases h2 : k' = k2
      · subst h2
        rw [if_pos rfl, if_pos rfl]
      · rw [if_neg h2, if_neg h2, if_neg h2]
    · rw [if_neg h1, jlookup, jlookup]
      by_cases h2 : k' = k2
      · subst h2
        rw [if_pos rfl, if_pos rfl, if_neg (fun hk => h1 hk.symm)]
      · rw [if_neg h2, if_neg h2, ih]

theorem jlookup_dictMerge (kvs : List (List Char × JVal)) :
    ∀ (m : List (List Char × JVal)) (k : List Char),
      jlookup (dictMerge m kvs) k =
        match lookupLast kvs k with
        | some v => some v
        | none => jlookup m k := by
  induction kvs with
  | nil => intro m k; rfl
  | cons kv rest ih =>
    intro m k
    obtain ⟨k0, v0⟩ := kv
    rw [dictMerge, List.foldl_cons]
    have step : dictMerge (dictSet m k0 v0) rest =
        List.foldl (fun acc kv => dictSet acc kv.1 kv.2) (dictSet m k0 v0) rest := rfl
    rw [← step, ih (dictSet m k0 v0) k, lookupLast]
    cases hl : lookupLast rest k with
    | some v' => rfl
    | none =>
      rw [jlookup_dictSet]
      by_cases h : k0 = k
      · subst h
        rw [if_pos rfl, if_pos rfl]
      · rw [if_neg h, if_neg h]

/-- C7: Write envelope shape: the plaintext handed to encryption is the
state/desired envelope around the merged dict; the three metadata keys are
always present, each holding its literal value unless the user data binds
the key, in which case the last user-supplied binding wins; every user key
maps to its last user-supplied value. -/
theorem claim7_control_envelope (data : List (List Char × JVal)) :
    controlEnvelope data =
      .obj [(stateKey, .obj [(desiredKey, .obj (desiredObj data))])] ∧
    jlookup (desiredObj data) commandTypeKey =
      some ((lookupLast data commandTypeKey).getD (.str ("app".data))) ∧
    jlookup (desiredObj data) deviceIdKey =
      some ((lookupLast data deviceIdKey).getD (.str [])) ∧
    jlookup (desiredObj data) enduserIdKey =
      some ((lookupLast data enduserIdKey).getD (.str [])) ∧
    (∀ k v, lookupLast data k = some v → jlookup (desiredObj data) k = some v) := by
  refine ⟨rfl, ?_, ?_, ?_, ?_⟩
  · rw [desiredObj, jlookup_dictMerge]
    cases hl : lookupLast data commandTypeKey with
    | some v => rfl
    | none => rfl
  · rw [desiredObj, jlookup_dictMerge]
    cases hl : lookupLast data deviceIdKey with
    | some v => rfl
    | none => rfl
  · rw [desiredObj, jlookup_dictMerge]
    cases hl : lookupLast data enduserIdKey with
    | some v => rfl
    | none => rfl
  · intro k v hkv
    rw [desiredObj, jlookup_dictMerge, hkv]

/-- C7 witness: the envelope of the repository write test, power and mode as
user data, plus a user override of CommandType winning in the merged dict. -/
theorem claim7_control_envelope_witness :
    jlookup (desiredObj [(commandTypeKey, .str ("override".data)),
        ("power".data, .bool true)]) ("power".data) = some (.bool true) :=
  (claim7_control_envelope [(commandTypeKey, .str ("override".data)),
      ("power".data, .bool true)]).2.2.2.2 ("power".data) (.bool true) rfl

/-- Modelled from the spec: shutdown tears down the CoAP context when one
exists; the outcome of awaiting the context shutdown is an input (it may
fail), and the model returns unit together with the number of context
shutdown calls and the messages logged instead of raised. -/
def clientShutdown (clientContext : Option (Except (List Char) Unit)) :
    Unit × Nat × List (List Char) :=
  match clientContext with
  | none => ((), 0, [])
  | some (.ok _) => ((), 1, [])
  | some (.error e) => ((), 1, [e])

/-- C8: shutdown never raises: it is total and returns unit in every case;
with no CoAP context it returns normally performing no context shutdown
call, and with a context it invokes the context shutdown exactly once,
logging rather than propagating a failure. -/
theorem claim8_shutdown (r : Except (List Char) Unit) :
    clientShutdown none = ((), 0, []) ∧
    (clientShutdown (some r)).1 = () ∧
    (clientShutdown (some r)).2.1 = 1 := by
  refine ⟨rfl, rfl, ?_⟩
  cases r <;> rfl

/-! ### The CLI set command (from src/philips_airctrl/cli.py, async_main) -/

/-- Values the CLI set command can produce: the true and false literals, an
integer when the int flag is given, or the raw string. -/
inductive CVal where
  | bool (b : Bool)
  | int (i : Int)
  | str (s : List Char)
  deriving DecidableEq

/-- Python str.split on the equals sign followed by the two-element tuple
unpacking of the CLI loop: exactly one separator yields the two parts,
anything else raises ValueError. -/
def splitKV (e : List Char) : Option (List Char × List Char) :=
  match e.splitOn '=' with
  | [k, v] => some (k, v)
  | _ => none

/-- Decimal digits of a nonempty string. -/
def parseDecDigits (l : List Char) : Option Nat :=
  if l.isEmpty then none
  else
    l.foldl (fun acc c => acc.bind fun a =>
      if 48 ≤ c.toNat ∧ c.toNat ≤ 57 then some (10 * a + (c.toNat - 48)) else none)
      (some 0)

/-- Python int() over a decimal string: optional surrounding whitespace,
optional sign, at least one digit. -/
def parseIntPy (v : List Char) : Option Int :=
  match trimChars v with
  | '-' :: ds => (parseDecDigits ds).map (fun n => -(n : Int))
  | '+' :: ds => (parseDecDigits ds).map (fun n => (n : Int))
  | ds => (parseDecDigits ds).map (fun n => (n : Int))

/-- Python dict item assignment for CLI values. -/
def dictSetC (m : List (List Char × CVal)) (k : List Char) (v : CVal) :
    List (List Char × CVal) :=
  match m with
  | [] => [(k, v)]
  | (k', v') :: rest => if k' = k then (k', v) :: rest else (k', v') :: dictSetC rest k v

/-- One value conversion of the CLI set loop: the literals true and false,
then integer conversion when the int flag is given (None models the failed
flag being set), otherwise the raw string. -/
def parseSetValue (valueAsInt : Bool) (v : List Char) : Option CVal :=
  if v = "true".data then some (.bool true)
  else if v = "false".data then some (.bool false)
  else if valueAsInt then (parseIntPy v).map .int
  else some (.str v)

/-- Outcome of the K=V loop of the set command. -/
inductive SetParseResult where
  | ok (data : List (List Char × CVal))
  | failed
  | raised
  deriving DecidableEq

/-- The K=V loop of the set command in async_main: split each argument on
the equals sign (a bad split raises ValueError), convert the value (a failed
integer conversion sets the failed flag and breaks), and assign the pair
into the data dict. -/
def parseSetValues (valueAsInt : Bool) :
    List (List Char) → List (List Char × CVal) → SetParseResult
  | [], acc => .ok acc
  | e :: rest, acc =>
    match splitKV e with
    | none => .raised
    | some (k, v) =>
      match parseSetValue valueAsInt v with
      | none => .failed
      | some cv => parseSetValues valueAsInt rest (dictSetC acc k cv)

/-- The set command decision of async_main: set_control_values is called
with the parsed data exactly when the loop finished without failure and the
data dict is nonempty; None means no write is sent. -/
def setCommandWrite (valueAsInt : Bool) (values : List (List Char)) :
    Option (List (List Char × CVal)) :=
  match parseSetValues valueAsInt values [] with
  | .ok data => if data = [] then none else some data
  | _ => none

theorem parseSetValues_not_ok (valueAsInt : Bool) :
    ∀ (values : List (List Char)) (acc : List (List Char × CVal)) (e : List Char),
      e ∈ values →
      (match splitKV e with
       | none => True
       | some kv => parseSetValue valueAsInt kv.2 = none) →
      ∀ data, parseSetValues valueAsInt values acc ≠ .ok data := by
  intro values
  induction values with
  | nil => intro acc e he; simp at he
  | cons a rest ih =>
    intro acc e he hbad data
    cases hsa : splitKV a with
    | none => simp [parseSetValues, hsa]
    | some kv =>
      obtain ⟨k, v⟩ := kv
      cases hpv : parseSetValue valueAsInt v with
      | none => simp [parseSetValues, hsa, hpv]
      | some cv =>
        simp only [parseSetValues, hsa, hpv]
        rcases List.mem_cons.mp he with rfl | he2
        · simp only [hsa] at hbad
          rw [hbad] at hpv
          exact Option.noConfusion hpv
        · exact ih (dictSetC acc k cv) e he2 hbad data

/-- C9: CLI write atomicity: when no key-value arguments are present, or when
any K=V argument has a value that is neither the literal true nor false and
integer conversion under the int flag fails, set_control_values is never
called - a parse failure on any one pair suppresses the entire write. -/
theorem claim9_cli_set_atomicity (valueAsInt : Bool) (values : List (List Char)) :
    (values = [] → setCommandWrite valueAsInt values = none) ∧
    (∀ e ∈ values, ∀ k v, splitKV e = some (k, v) →
      v ≠ "true".data → v ≠ "false".data → valueAsInt = true → parseIntPy v = none →
      setCommandWrite valueAsInt values = none) := by
  constructor
  · intro h
    subst h
    rfl
  · intro e he k v hsplit hv1 hv2 hvai hint
    subst hvai
    have hbad : parseSetValue true v = none := by
      rw [parseSetValue, if_neg hv1, if_neg hv2, if_pos rfl, hint]
      rfl
    rw [setCommandWrite]
    cases hres : parseSetValues true values [] with
    | ok data =>
      exact absurd hres
        (parseSetValues_not_ok true values [] e he (by rw [hsplit]; exact hbad) data)
    | failed => rfl
    | raised => rfl

/-- C9 witness: with the int flag, the single argument speed=abc fails
integer conversion and no write is issued. -/
theorem claim9_cli_set_atomicity_witness :
    setCommandWrite true [("speed=abc".data)] = none :=
  (claim9_cli_set_atomicity true [("speed=abc".data)]).2 ("speed=abc".data)
    (List.mem_cons_self _ _) ("speed".data) ("abc".data) rfl (by decide) (by decide)
    rfl rfl

/-! ### The discovery scanner (from src/aioairctrl/discovery.py, scan_ip) -/

/-- Device information collected by the discovery scanner, mirroring the
DeviceInfo fields of discovery.py. -/
structure DiscDeviceInfo where
  ip : List Char
  port : Nat
  model : Option JVal
  name : Option JVal
  device_id : Option JVal
  product_id : Option JVal
  firmware_version : Option JVal
  wifi_version : Option JVal
  serial_number : Option JVal
  status : Option (List (List Char × JVal))
  reachable : Bool

/-- A fresh DeviceInfo for an address, as DeviceInfo.__init__ builds it. -/
def DiscDeviceInfo.start (ip : List Char) : DiscDeviceInfo :=
  ⟨ip, 5683, none, none, none, none, none, none, none, none, false⟩

/-- Python dict.get with a default value. -/
def jlookupD (m : List (List Char × JVal)) (k : List Char) (d : JVal) : JVal :=
  (jlookup m k).getD d

/-- The field extraction scan_ip performs on a successful status read:
reachable is set, the status is stored, model and name default to Unknown,
the remaining identifiers to None. -/
def populateDevice (ip : List Char) (status : List (List Char × JVal)) : DiscDeviceInfo :=
  ⟨ip, 5683,
    some (jlookupD status ("D01S05".data) (.str ("Unknown".data))),
    some (jlookupD status ("D01S03".data) (.str ("Unknown".data))),
    jlookup status ("DeviceId".data),
    jlookup status ("ProductId".data),
    jlookup status ("D01S12".data),
    jlookup status ("WifiVersion".data),
    jlookup status ("D01S0D".data),
    some status, true⟩

/-- scan_ip of DeviceDiscovery as a function of the outcomes of its three
effectful steps: the UDP connect_ex probe (exception or result code), client
creation (timeout or error versus success) and the status read. The result
pairs the returned Optional DeviceInfo with the number of client shutdown
calls awaited (the finally block runs exactly when the client was created);
every exception path is caught and returns None. -/
def scanIp (ip : List Char) (sockConn : Except Unit Int)
    (createClient : Except Unit Unit)
    (getStatus : Except Unit (List (List Char × JVal))) :
    Option DiscDeviceInfo × Nat :=
  match sockConn with
  | .error _ => (none, 0)
  | .ok code =>
    if code ≠ 0 then (none, 0)
    else
      match createClient with
      | .error _ => (none, 0)
      | .ok _ =>
        match getStatus with
        | .error _ => (none, 1)
        | .ok status => (some (populateDevice ip status), 1)

/-- C10: Discovery probe totality: scan_ip is a total function (no exception
escapes); every failure path - socket exception, unreachable port, client
creation failure, status read failure - returns None; the success path
returns a DeviceInfo with reachable true and the status stored; and the
client shutdown is awaited exactly once whenever the client was successfully
created, never otherwise. -/
theorem claim10_scan_ip (ip : List Char) (sockConn : Except Unit Int)
    (createClient : Except Unit Unit)
    (getStatus : Except Unit (List (List Char × JVal))) :
    (∀ e, sockConn = .error e → scanIp ip sockConn createClient getStatus = (none, 0)) ∧
    (∀ code, sockConn = .ok code → code ≠ 0 →
      scanIp ip sockConn createClient getStatus = (none, 0)) ∧
    (sockConn = .ok 0 → createClient = .error () →
      scanIp ip sockConn createClient getStatus = (none, 0)) ∧
    (sockConn = .ok 0 → createClient = .ok () → getStatus = .error () →
      scanIp ip sockConn createClient getStatus = (none, 1)) ∧
    (∀ st, sockConn = .ok 0 → createClient = .ok () → getStatus = .ok st →
      scanIp ip sockConn createClient getStatus = (some (populateDevice ip st), 1) ∧
      (populateDevice ip st).reachable = true ∧
      (populateDevice ip st).status = some st) ∧
    ((scanIp ip sockConn createClient getStatus).2 = 1 ↔
      sockConn = .ok 0 ∧ createClient = .ok ()) := by
  refine ⟨?_, ?_, ?_, ?_, ?_, ?_⟩
  · intro e h
    subst h
    rfl
  · intro code h hc
    subst h
    simp [scanIp, hc]
  · intro h1 h2
    subst h1
    subst h2
    rfl
  · intro h1 h2 h3
    subst h1
    subst h2
    subst h3
    rfl
  · intro st h1 h2 h3
    subst h1
    subst h2
    subst h3
    exact ⟨rfl, rfl, rfl⟩
  · cases sockConn with
    | error e => simp [scanIp]
    | ok code =>
      by_cases hc : code = 0
      · subst hc
        cases createClient with
        | error e =>
          cases e
          simp [scanIp]
        | ok u =>
          cases u
          cases getStatus with
          | error e =>
            cases e
            simp [scanIp]
          | ok st => simp [scanIp]
      · simp [scanIp, hc]

/-- C10 witness: a concrete successful probe returning a status map, with
the device populated and exactly one shutdown call. -/
theorem claim10_scan_ip_witness :
    scanIp ("192.168.1.100".data) (.ok 0) (.ok ())
        (.ok [("D01S05".data, .str ("AC2729".data))]) =
      (some (populateDevice ("192.168.1.100".data)
        [("D01S05".data, .str ("AC2729".data))]), 1) ∧
    (populateDevice ("192.168.1.100".data)
      [("D01S05".data, .str ("AC2729".data))]).reachable = true :=
  have h := (claim10_scan_ip ("192.168.1.100".data) (.ok 0) (.ok ())
    (.ok [("D01S05".data, .str ("AC2729".data))])).2.2.2.2.1
    [("D01S05".data, .str ("AC2729".data))] rfl rfl rfl
  ⟨h.1, h.2.1⟩

end Airctrl








